import Mathlib

/-!
Verification of the URL Download App (src/main.py) against its specification.

The Python code is shallowly embedded in Lean.  Python strings are modelled
as `List Char` (wrapped into `String` at component boundaries), Python
integers as `Int`, and fallible code as `Except String`.

The app delegates to the CPython 3.11 standard library; the relevant parts
(`urllib.parse.urlsplit`, `urlparse`, `parse_qs`, `unquote`, and
`pathlib.PurePosixPath` operations) are embedded below following their
CPython 3.11 sources.  Two validation paths of `urlsplit` that depend on
whole Unicode tables are deliberately out of scope of the embedding and
treated as accepting: the NFKC-normalization check of non-ASCII authorities
(`_checknetloc`), which is a no-op for every ASCII authority, and nothing
else; all other branches, including the "Invalid IPv6 URL" rejection of
authorities with unbalanced square brackets, are modelled.  The float
true-division in `int(read * 100 / total_size)` is embedded exactly:
`floatDivTrunc` computes the correctly rounded (round to nearest, ties to
even) binary64 quotient of the two integers and truncates it toward zero,
idealizing only the exponent range (no overflow exception below, no
subnormal precision loss — both unreachable for progress arithmetic).
-/

namespace URLApp

/-- Decidable equality for `Except`, used to evaluate the embedded
operations on concrete inputs. -/
instance {ε α : Type} [DecidableEq ε] [DecidableEq α] : DecidableEq (Except ε α) := fun a b =>
  match a, b with
  | .error e, .error f =>
    if h : e = f then .isTrue (congrArg Except.error h)
    else .isFalse (fun hh => h (Except.error.inj hh))
  | .ok x, .ok y =>
    if h : x = y then .isTrue (congrArg Except.ok h)
    else .isFalse (fun hh => h (Except.ok.inj hh))
  | .error _, .ok _ => .isFalse (fun hh => Except.noConfusion hh)
  | .ok _, .error _ => .isFalse (fun hh => Except.noConfusion hh)

/-! ### Generic character-list utilities -/

/-- Python `s.split(sep)`: split at every occurrence of `sep`.
The result is always non-empty. -/
def splitChar (sep : Char) : List Char → List (List Char)
  | [] => [[]]
  | c :: rest =>
    let r := splitChar sep rest
    if c = sep then [] :: r else (c :: r.headD []) :: r.tail

/-- Python `s.split(sep, 1)`: split at the first occurrence of `sep`;
`none` when `sep` does not occur. -/
def splitFirst (sep : Char) : List Char → Option (List Char × List Char)
  | [] => none
  | c :: rest =>
    if c = sep then some ([], rest)
    else match splitFirst sep rest with
      | none => none
      | some (a, b) => some (c :: a, b)

/-! ### Percent-decoding (`urllib.parse.unquote`)

CPython splits the string into maximal ASCII runs, percent-decodes each run
to bytes via the strict two-hex-digit table `_hextobyte` (an invalid escape
leaves a literal `%`), UTF-8-decodes each run's bytes with
`errors='replace'` (one U+FFFD per maximal invalid subpart), and passes
non-ASCII characters through verbatim.  The embedding computes the same
result in two single-pass scans: a percent-escape scanner producing a token
stream in which `Sum.inl b` is a byte of the current ASCII run and
`Sum.inr c` a verbatim non-ASCII character interrupting the run, and an
incremental UTF-8 decoder over that stream. -/

/-- Value of an ASCII hex digit, as accepted by `_hextobyte`. -/
def hexDigit? (c : Char) : Option Nat :=
  if '0' ≤ c ∧ c ≤ '9' then some (c.toNat - 48)
  else if 'a' ≤ c ∧ c ≤ 'f' then some (c.toNat - 87)
  else if 'A' ≤ c ∧ c ≤ 'F' then some (c.toNat - 55)
  else none

/-- A literal character as a token: ASCII characters are bytes of the
current run, anything else passes through as a character. -/
def charTok (c : Char) : Nat ⊕ Char :=
  if c.toNat ≤ 127 then .inl c.toNat else .inr c

/-- State of the percent-escape scanner: outside an escape, right after a
`%`, or after `%` and one hex digit (value and original character kept). -/
inductive PctState where
  | clean : PctState
  | afterPct : PctState
  | afterHex : Nat → Char → PctState
deriving DecidableEq

/-- One step of the percent-escape scanner: tokens emitted and next state.
An escape whose two characters are not both hex digits contributes a
literal `%` (byte 37) followed by the characters themselves, rescanned. -/
def pctStep : PctState → Char → List (Nat ⊕ Char) × PctState
  | .clean, c => if c = '%' then ([], .afterPct) else ([charTok c], .clean)
  | .afterPct, c =>
    match hexDigit? c with
    | some x => ([], .afterHex x c)
    | none => if c = '%' then ([.inl 37], .afterPct) else ([.inl 37, charTok c], .clean)
  | .afterHex x a, c =>
    match hexDigit? c with
    | some y => ([.inl (16 * x + y)], .clean)
    | none =>
      if c = '%' then ([.inl 37, .inl a.toNat], .afterPct)
      else ([.inl 37, .inl a.toNat, charTok c], .clean)

/-- Tokens of an escape left unfinished at the end of the string. -/
def pctFlush : PctState → List (Nat ⊕ Char)
  | .clean => []
  | .afterPct => [.inl 37]
  | .afterHex _ a => [.inl 37, .inl a.toNat]

/-- Fold step accumulating the emitted tokens. -/
def pctStepAcc (p : List (Nat ⊕ Char) × PctState) (c : Char) :
    List (Nat ⊕ Char) × PctState :=
  let e := pctStep p.2 c
  (p.1 ++ e.1, e.2)

/-- Tokenize a Python string for `unquote`: percent-escapes and literal
ASCII characters become bytes, non-ASCII characters stay characters. -/
def unquoteTokens (s : List Char) : List (Nat ⊕ Char) :=
  (s.foldl pctStepAcc ([], .clean)).1 ++ pctFlush (s.foldl pctStepAcc ([], .clean)).2

/-- The Unicode replacement character U+FFFD. -/
def fffd : Char := Char.ofNat 0xFFFD

/-- Lower bound of the second byte of a three-byte sequence (E0 excludes
overlong encodings). -/
def cont3lo (b : Nat) : Nat := if b = 0xE0 then 0xA0 else 0x80

/-- Upper bound of the second byte of a three-byte sequence (ED excludes
surrogates). -/
def cont3hi (b : Nat) : Nat := if b = 0xED then 0x9F else 0xBF

/-- Lower bound of the second byte of a four-byte sequence (F0 excludes
overlong encodings). -/
def cont4lo (b : Nat) : Nat := if b = 0xF0 then 0x90 else 0x80

/-- Upper bound of the second byte of a four-byte sequence (F4 caps the
code space at U+10FFFF). -/
def cont4hi (b : Nat) : Nat := if b = 0xF4 then 0x8F else 0xBF

/-- State of the incremental UTF-8 decoder: between sequences, or inside a
multi-byte sequence with `need` continuation bytes still expected, the
accumulated bits, and the admissible range of the next byte. -/
inductive U8State where
  | clean : U8State
  | pending : Nat → Nat → Nat → Nat → U8State
deriving DecidableEq

/-- Decode a byte arriving between sequences. -/
def u8Lead (b : Nat) : List Char × U8State :=
  if b ≤ 127 then ([Char.ofNat b], .clean)
  else if b < 0xC2 then ([fffd], .clean)
  else if b ≤ 0xDF then ([], .pending 1 (b - 0xC0) 0x80 0xBF)
  else if b ≤ 0xEF then ([], .pending 2 (b - 0xE0) (cont3lo b) (cont3hi b))
  else if b ≤ 0xF4 then ([], .pending 3 (b - 0xF0) (cont4lo b) (cont4hi b))
  else ([fffd], .clean)

/-- One step of the UTF-8 decoder with `errors='replace'`: an invalid or
interrupting token yields one U+FFFD for the pending maximal subpart, and
the token is reprocessed from the clean state (CPython's semantics). -/
def u8Step : U8State → Nat ⊕ Char → List Char × U8State
  | .clean, .inl b => u8Lead b
  | .clean, .inr c => ([c], .clean)
  | .pending need acc lo hi, .inl b =>
    if lo ≤ b ∧ b ≤ hi then
      if need ≤ 1 then ([Char.ofNat (acc * 64 + (b - 0x80))], .clean)
      else ([], .pending (need - 1) (acc * 64 + (b - 0x80)) 0x80 0xBF)
    else
      let e := u8Lead b
      (fffd :: e.1, e.2)
  | .pending _ _ _ _, .inr c => ([fffd, c], .clean)

/-- Replacement character for a sequence left unfinished at end of input. -/
def u8Flush : U8State → List Char
  | .clean => []
  | .pending _ _ _ _ => [fffd]

/-- Fold step accumulating the decoded characters. -/
def u8StepAcc (p : List Char × U8State) (t : Nat ⊕ Char) : List Char × U8State :=
  let e := u8Step p.2 t
  (p.1 ++ e.1, e.2)

/-- UTF-8-decode the byte tokens with `errors='replace'`; character tokens
pass through. -/
def renderToks (ts : List (Nat ⊕ Char)) : List Char :=
  (ts.foldl u8StepAcc ([], .clean)).1 ++ u8Flush (ts.foldl u8StepAcc ([], .clean)).2

/-- Python `urllib.parse.unquote` with the default UTF-8/replace decoding. -/
def unquote (s : List Char) : List Char := renderToks (unquoteTokens s)

/-- The `.replace('+', ' ')` step of `parse_qsl`. -/
def plusToSpace (s : List Char) : List Char :=
  s.map (fun c => if c = '+' then ' ' else c)

/-! ### Query-string parsing (`urllib.parse.parse_qsl` / `parse_qs`)

Default flags of the call in `main.py`: `keep_blank_values=False`,
`strict_parsing=False`, `separator='&'`.  Chunks without `=` and chunks
whose raw value is empty are skipped; names and values get `+` replaced by
a space and are then percent-decoded. -/

/-- Process the `&`-separated chunks of a query string. -/
def qslPairs : List (List Char) → List (String × String)
  | [] => []
  | chunk :: rest =>
    let acc := qslPairs rest
    if chunk = [] then acc
    else match splitFirst '=' chunk with
      | none => acc
      | some (n, v) =>
        if v = [] then acc
        else (String.mk (unquote (plusToSpace n)), String.mk (unquote (plusToSpace v))) :: acc

/-- Python `urllib.parse.parse_qsl(qs)` with the defaults used by the app. -/
def parse_qsl (qs : String) : List (String × String) :=
  qslPairs (splitChar '&' qs.toList)

/-- Lookup in the dictionary built by `urllib.parse.parse_qs(qs)`: the list
of all values stored under `key`, in insertion order. -/
def parse_qs_all (qs : String) (key : String) : List String :=
  ((parse_qsl qs).filter (fun p => p.1 == key)).map (fun p => p.2)

/-! ### URL splitting (`urllib.parse.urlsplit` / `urlparse`, CPython 3.11) -/

/-- Result of `urlsplit`: scheme, netloc, path, query, fragment. -/
structure SplitResult where
  scheme : String
  netloc : String
  path : String
  query : String
  fragment : String
deriving DecidableEq

/-- Result of `urlparse`: `urlsplit` plus the `;params` of the last path
segment split off. -/
structure ParseResult where
  scheme : String
  netloc : String
  path : String
  params : String
  query : String
  fragment : String
deriving DecidableEq

/-- Characters removed from the URL up front (`_UNSAFE_URL_BYTES_TO_REMOVE`). -/
def urlKeep (c : Char) : Bool := !(c == '\t' || c == '\r' || c == '\n')

/-- ASCII letter test (`url[0].isascii() and url[0].isalpha()`). -/
def asciiAlphaB (c : Char) : Bool :=
  decide (('a' ≤ c ∧ c ≤ 'z') ∨ ('A' ≤ c ∧ c ≤ 'Z'))

/-- Membership in `scheme_chars` (ASCII letters, digits, `+`, `-`, `.`). -/
def schemeCharB (c : Char) : Bool :=
  asciiAlphaB c || decide ('0' ≤ c ∧ c ≤ '9') || c == '+' || c == '-' || c == '.'

/-- ASCII lowercasing, as `str.lower()` acts on a validated scheme. -/
def lowerAscii (l : List Char) : List Char :=
  l.map (fun c => if 'A' ≤ c ∧ c ≤ 'Z' then Char.ofNat (c.toNat + 32) else c)

/-- Scheme detection of `urlsplit`: split at the first `:` when the part
before it is a non-empty run of scheme characters starting with an ASCII
letter; otherwise leave the URL whole with an empty scheme. -/
def schemeSplit (u : List Char) : List Char × List Char :=
  match splitFirst ':' u with
  | none => ([], u)
  | some (before, after) =>
    match before with
    | [] => ([], u)
    | b :: _ =>
      if asciiAlphaB b && before.all schemeCharB then (lowerAscii before, after)
      else ([], u)

/-- Python `_splitnetloc(url, 2)` on the part after `//`: the netloc runs to
the first `/`, `?` or `#`. -/
def netlocSplit : List Char → List Char × List Char
  | [] => ([], [])
  | c :: rest =>
    if c = '/' ∨ c = '?' ∨ c = '#' then ([], c :: rest)
    else
      let r := netlocSplit rest
      (c :: r.1, r.2)

/-- Fragment and query extraction: `url.split('#', 1)` then
`url.split('?', 1)`.  Returns (path, query, fragment). -/
def fragQuerySplit (u : List Char) : List Char × List Char × List Char :=
  let uf := match splitFirst '#' u with
    | none => (u, [])
    | some (a, f) => (a, f)
  let pq := match splitFirst '?' uf.1 with
    | none => (uf.1, [])
    | some (a, q) => (a, q)
  (pq.1, pq.2, uf.2)

/-- Python `urllib.parse.urlsplit` (CPython 3.11, default arguments).
Authorities with unbalanced square brackets raise `ValueError`, modelled as
`Except.error`.  The NFKC check `_checknetloc`, a no-op for ASCII
authorities, is not modelled. -/
def urlsplitE (url : String) : Except String SplitResult :=
  let u0 := url.toList.filter urlKeep
  let s1 := schemeSplit u0
  match s1.2 with
  | '/' :: '/' :: rest =>
    let n := netlocSplit rest
    if ('[' ∈ n.1 ∧ ']' ∉ n.1) ∨ (']' ∈ n.1 ∧ '[' ∉ n.1) then
      .error "Invalid IPv6 URL"
    else
      let t := fragQuerySplit n.2
      .ok ⟨String.mk s1.1, String.mk n.1, String.mk t.1, String.mk t.2.1, String.mk t.2.2⟩
  | u1 =>
    let t := fragQuerySplit u1
    .ok ⟨String.mk s1.1, "", String.mk t.1, String.mk t.2.1, String.mk t.2.2⟩

/-- Schemes whose URLs carry `;params` (`urllib.parse.uses_params`). -/
def usesParams : List String :=
  ["", "ftp", "hdl", "prospero", "http", "imap", "mailto", "mms", "news",
   "nntp", "ptp", "rsync", "rtsp", "rtspu", "sftp", "sip", "sips", "snews",
   "svn", "svn+ssh", "telnet", "wais", "ws", "wss", "https"]

/-- Split a list at its last occurrence of `sep`:
`some (pre, tail)` with `l = pre ++ sep :: tail` and `sep ∉ tail`. -/
def splitLast (sep : Char) (l : List Char) : Option (List Char × List Char) :=
  match splitFirst sep l.reverse with
  | none => none
  | some (a, b) => some (b.reverse, a.reverse)

/-- Python `_splitparams(url)`: params start at the first `;` after the
last `/` (or anywhere when there is no `/`).  Only called when `;` occurs. -/
def splitparams (u : List Char) : List Char × List Char :=
  match splitLast '/' u with
  | some (pre, tail) =>
    match splitFirst ';' tail with
    | none => (u, [])
    | some (a, b) => (pre ++ '/' :: a, b)
  | none =>
    match splitFirst ';' u with
    | none => (u, [])
    | some (a, b) => (a, b)

/-- Python `urllib.parse.urlparse` (CPython 3.11, default arguments). -/
def urlparseE (url : String) : Except String ParseResult :=
  match urlsplitE url with
  | .error e => .error e
  | .ok sr =>
    if sr.scheme ∈ usesParams ∧ ';' ∈ sr.path.toList then
      let p := splitparams sr.path.toList
      .ok ⟨sr.scheme, sr.netloc, String.mk p.1, String.mk p.2, sr.query, sr.fragment⟩
    else
      .ok ⟨sr.scheme, sr.netloc, sr.path, "", sr.query, sr.fragment⟩

/-! ### `App.extract_media_url` (src/main.py lines 46-62) -/

/-- Python `App.extract_media_url`: parse the URL, take the first value of
the `mediaurl` query parameter (`params.get('mediaurl', [None])[0]`), and
return it when truthy, the input URL otherwise.  A `ValueError` escaping
`urlparse` is modelled as `Except.error`. -/
def extract_media_url (url : String) : Except String String :=
  match urlparseE url with
  | .error e => .error e
  | .ok pr =>
    match (parse_qs_all pr.query "mediaurl").head? with
    | some v => .ok (if v = "" then url else v)
    | none => .ok url

/-! ### Path handling (`pathlib.PurePosixPath`, CPython 3.11)

A parsed POSIX path is its root (`""`, `"/"`, or `"//"`: exactly two
leading slashes are a distinct root, any other number collapses to one)
plus the list of components with empty and `"."` entries dropped. -/

/-- Parsed form of a `pathlib.PurePosixPath`. -/
structure PPath where
  root : String
  comps : List String
deriving DecidableEq

/-- Number of leading occurrences of `c`. -/
def leadCount (c : Char) : List Char → Nat
  | [] => 0
  | x :: rest => if x = c then leadCount c rest + 1 else 0

/-- Python `pathlib.PurePosixPath(s)`. -/
def parsePath (s : String) : PPath :=
  let l := s.toList
  let n := leadCount '/' l
  let root := if n = 0 then "" else if n = 2 then "//" else "/"
  let comps := ((splitChar '/' l).filter (fun p => p != [] && p != ['.'])).map String.mk
  ⟨root, comps⟩

/-- Python `PurePath.name`: the final component, or `''` when there is
none. -/
def pathName (p : PPath) : String := p.comps.getLast?.getD ""

/-- Index of the last `.` in a list, Python `str.rfind('.')` (as `Option`
instead of `-1`). -/
def lastDot : List Char → Option Nat
  | [] => none
  | c :: rest =>
    match lastDot rest with
    | some i => some (i + 1)
    | none => if c = '.' then some 0 else none

/-- Python `PurePath.suffix`: `name[i:]` for the last dot index `i` when
`0 < i < len(name) - 1`, otherwise `''`. -/
def pathSuffix (p : PPath) : String :=
  let name := (pathName p).toList
  match lastDot name with
  | some i => if 0 < i ∧ i < name.length - 1 then String.mk (name.drop i) else ""
  | none => ""

/-- Python `App.has_extension` (src/main.py lines 64-76):
`file_path.suffix != ''`. -/
def has_extension (p : PPath) : Bool := pathSuffix p != ""

/-- Python `PurePath.with_suffix` on a POSIX path; the three `ValueError`
conditions are modelled as `Except.error`. -/
def with_suffix (p : PPath) (suffix : String) : Except String PPath :=
  if '/' ∈ suffix.toList then .error "Invalid suffix"
  else if (suffix ≠ "" ∧ suffix.toList.head? ≠ some '.') ∨ suffix = "." then
    .error "Invalid suffix"
  else
    let name := pathName p
    if name = "" then .error "has an empty name"
    else
      let old := pathSuffix p
      let newName :=
        if old = "" then name ++ suffix
        else String.mk (name.toList.take (name.length - old.length)) ++ suffix
      .ok ⟨p.root, p.comps.dropLast ++ [newName]⟩

/-! ### Python float true division of two ints, truncated (`int(x / y)`)

CPython's `int.__truediv__` computes the binary64 double nearest to the
exact quotient (round to nearest, ties to even — `long_true_divide` is
correctly rounded), and `int()` truncates it toward zero.  The embedding
computes that double exactly: find the binary shift `t` that scales the
quotient's integer part `⌊a·2^t / b⌋` into `[2^52, 2^53)`, round the
scaled quotient to an integer mantissa half-to-even, and shift back.  The
exponent is unbounded in the model: quotients outside the binary64 normal
range (below 2^-1022, where doubles lose precision, or at least 2^1024,
where CPython raises OverflowError) are idealized as keeping 53-bit
precision; such quotients are unreachable for any actual progress
notification. -/

/-- Number of binary digits of `n` (0 for `n = 0`); the first argument is
fuel, consumed once per halving. -/
def natBitsF : Nat → Nat → Nat
  | 0, _ => 0
  | f + 1, n => if n ≤ 1 then n else natBitsF f (n / 2) + 1

/-- Number of binary digits of `n` (0 for `n = 0`). -/
def natBits (n : Nat) : Nat := natBitsF n n

/-- The binary shift `t` with `⌊a·2^t / b⌋ ∈ [2^52, 2^53)`: one less than
the bit-length difference suggests, adjusted upward when the first guess
falls short. -/
def floatScale (a b : Nat) : Int :=
  let t1 : Int := 52 - ((natBits a : Int) - (natBits b : Int))
  if (a * 2 ^ t1.toNat) / (b * 2 ^ (-t1).toNat) < 2 ^ 52 then t1 + 1 else t1

/-- Round the quotient with integer part `m0` and remainder `r` over
denominator `D` to the nearest integer, ties to even. -/
def roundMant (m0 r D : Nat) : Nat :=
  if 2 * r < D then m0
  else if D < 2 * r then m0 + 1
  else if m0 % 2 = 0 then m0 else m0 + 1

/-- Python `int(a / b)` for `0 ≤ a` and `0 < b`: the correctly rounded
binary64 quotient (unbounded exponent, see above), truncated. -/
def floatDivPos (a b : Nat) : Nat :=
  if a = 0 then 0
  else
    let t := floatScale a b
    let N := a * 2 ^ t.toNat
    let D := b * 2 ^ (-t).toNat
    let m := roundMant (N / D) (N % D) D
    m * 2 ^ (-t).toNat / 2 ^ t.toNat

/-- Python `int(x / y)` on arbitrary ints: float division is
sign-symmetric, and `int()` truncates toward zero. -/
def floatDivTrunc (x y : Int) : Int :=
  if 0 ≤ x then
    if 0 ≤ y then (floatDivPos x.toNat y.toNat : Int)
    else -(floatDivPos x.toNat (-y).toNat : Int)
  else
    if 0 ≤ y then -(floatDivPos (-x).toNat y.toNat : Int)
    else (floatDivPos (-x).toNat (-y).toNat : Int)

/-! ### `App.handle_progress` (src/main.py lines 113-133)

The callback receives the block number, block size and total size reported
by `urlretrieve` (the total is negative when unknown) and drives the
progress indicator.  `progress_writes` lists the values passed to
`progress_bar.setValue` during one call; `handle_progress` is the
indicator's value afterwards, given its value before.  The percent
computation `int(read * 100 / total_size)` is float true division, embedded
by `floatDivTrunc`. -/

/-- Values written to the progress bar by one `handle_progress` call. -/
def progress_writes (block_number block_size total_size : Int) : List Int :=
  let read := block_number * block_size
  (if 0 < total_size then
    let percent := floatDivTrunc (read * 100) total_size
    [if 100 < percent then 100 else percent]
  else []) ++ (if total_size ≤ read then [100] else [])

/-- The progress bar value after one `handle_progress` call. -/
def handle_progress (bar : Int) (block_number block_size total_size : Int) : Int :=
  let read := block_number * block_size
  let bar1 :=
    if 0 < total_size then
      let percent := floatDivTrunc (read * 100) total_size
      if 100 < percent then 100 else percent
    else bar
  if total_size ≤ read then 100 else bar1

/-! ### `App.download` (src/main.py lines 78-103)

The fetch (`urllib.request.urlretrieve`) is external: it is modelled by the
sequence of progress notifications it delivers and its outcome — normal
return, an escaping `urllib.error.URLError`, or any other escaping
`Exception`.  The surrounding state is the two text fields and the
progress bar.  The result records which dialog (if any) the user sees;
an exception raised before the `try` block escapes the handler entirely
(`uncaught`). -/

/-- Outcome of the `urlretrieve` call. -/
inductive FetchOutcome where
  | ok : FetchOutcome
  | urlError : String → FetchOutcome
  | exn : String → FetchOutcome
deriving DecidableEq

/-- Behaviour of one `urlretrieve` call: progress notifications
(block number, block size, total size) followed by the outcome. -/
structure FetchBehavior where
  events : List (Int × Int × Int)
  outcome : FetchOutcome
deriving DecidableEq

/-- The mutable widget state the download operation touches. -/
structure AppState where
  urlField : String
  locationField : String
  progressBar : Int
deriving DecidableEq

/-- Observable result of one download trigger. -/
inductive DownloadResult where
  | uncaught : String → DownloadResult
  | completed : DownloadResult
  | networkWarning : String → DownloadResult
  | genericWarning : String → DownloadResult
deriving DecidableEq

/-- Destination normalization of `download` (src/main.py lines 85-89):
parse the location text; when it has no extension, append the extension of
the resolved URL's path component via `with_suffix`. -/
def normalizeLoc (url : String) (locField : String) : Except String PPath :=
  let location := parsePath locField
  if has_extension location then .ok location
  else
    match urlparseE url with
    | .error e => .error e
    | .ok pr => with_suffix location (pathSuffix (parsePath pr.path))

/-- Progress bar value after a sequence of progress notifications. -/
def runProgress (bar : Int) (events : List (Int × Int × Int)) : Int :=
  events.foldl (fun b e => handle_progress b e.1 e.2.1 e.2.2) bar

/-- Python `App.download`: resolve the URL, normalize the destination,
clear both text fields, run the fetch, and dispatch on its outcome.
Errors raised before the `try` block (by `urlparse` or `with_suffix`)
escape unhandled, leaving the state untouched. -/
def download (st : AppState) (fetch : FetchBehavior) : DownloadResult × AppState :=
  match extract_media_url st.urlField with
  | .error e => (.uncaught e, st)
  | .ok url =>
    match normalizeLoc url st.locationField with
    | .error e => (.uncaught e, st)
    | .ok _location =>
      let st1 : AppState := { st with urlField := "", locationField := "" }
      let bar := runProgress st1.progressBar fetch.events
      match fetch.outcome with
      | .ok => (.completed, { st1 with progressBar := 0 })
      | .urlError e =>
        (.networkWarning ("Failed to download the file. Error: " ++ e),
         { st1 with progressBar := bar })
      | .exn e =>
        (.genericWarning ("An error occurred: " ++ e),
         { st1 with progressBar := bar })

/-! ## Helper lemmas -/

theorem splitChar_ne_nil (sep : Char) (l : List Char) : splitChar sep l ≠ [] := by
  cases l with
  | nil => simp [splitChar]
  | cons c rest =>
    simp only [splitChar]
    split <;> simp

theorem sep_not_mem_of_mem_splitChar {sep : Char} {l : List Char} {p : List Char}
    (hp : p ∈ splitChar sep l) : sep ∉ p := by
  induction l generalizing p with
  | nil =>
    simp [splitChar] at hp
    simp [hp]
  | cons c rest ih =>
    simp only [splitChar] at hp
    by_cases hc : c = sep
    · simp [hc] at hp
      rcases hp with h | h
      · simp [h]
      · exact ih h
    · simp [hc] at hp
      rcases hp with h | h
      · subst h
        intro hmem
        rcases List.mem_cons.mp hmem with h1 | h1
        · exact hc h1.symm
        · rcases hr : splitChar sep rest with _ | ⟨hd, tl⟩
          · exact splitChar_ne_nil sep rest hr
          · have : sep ∉ hd := ih (by rw [hr]; exact List.mem_cons_self hd tl)
            rw [hr] at h1
            exact this h1
      · rcases hr : splitChar sep rest with _ | ⟨hd, tl⟩
        · exact absurd hr (splitChar_ne_nil sep rest)
        · rw [hr] at h
          exact ih (by rw [hr]; exact List.mem_cons_of_mem hd h)

theorem pctStep_progress (s : PctState) (c : Char) :
    (pctStep s c).1 ≠ [] ∨ (pctStep s c).2 ≠ PctState.clean := by
  cases s with
  | clean =>
    simp only [pctStep]
    split <;> simp
  | afterPct =>
    rcases hx : hexDigit? c with _ | x
    · simp only [pctStep, hx]
      split <;> simp
    · simp [pctStep, hx]
  | afterHex x a =>
    rcases hx : hexDigit? c with _ | y
    · simp only [pctStep, hx]
      split <;> simp
    · simp [pctStep, hx]

theorem pctStepAcc_progress (p : List (Nat ⊕ Char) × PctState) (c : Char) :
    (pctStepAcc p c).1 ≠ [] ∨ (pctStepAcc p c).2 ≠ PctState.clean := by
  rcases hp : p.1 with _ | ⟨t, ts⟩
  · rcases pctStep_progress p.2 c with h | h
    · left; simp [pctStepAcc, hp, h]
    · right; simpa [pctStepAcc] using h
  · left; simp [pctStepAcc, hp]

theorem pct_foldl_progress (l : List Char) :
    ∀ p : List (Nat ⊕ Char) × PctState, l ≠ [] →
    (l.foldl pctStepAcc p).1 ≠ [] ∨ (l.foldl pctStepAcc p).2 ≠ PctState.clean := by
  induction l with
  | nil => exact fun p h => absurd rfl h
  | cons c rest ih =>
    intro p _
    by_cases hr : rest = []
    · subst hr
      simpa using pctStepAcc_progress p c
    · rw [List.foldl_cons]
      exact ih (pctStepAcc p c) hr

theorem unquoteTokens_ne_nil {l : List Char} (h : l ≠ []) : unquoteTokens l ≠ [] := by
  unfold unquoteTokens
  rcases pct_foldl_progress l ([], .clean) h with h1 | h1
  · simp [h1]
  · rcases hs : (l.foldl pctStepAcc ([], .clean)).2 with _ | _ | ⟨x, a⟩
    · exact absurd hs h1
    · simp [hs, pctFlush]
    · simp [hs, pctFlush]

theorem u8Step_progress (s : U8State) (t : Nat ⊕ Char) :
    (u8Step s t).1 ≠ [] ∨ (u8Step s t).2 ≠ U8State.clean := by
  cases s with
  | clean =>
    cases t with
    | inl b =>
      simp only [u8Step, u8Lead]
      split_ifs <;> simp
    | inr c => simp [u8Step]
  | pending need acc lo hi =>
    cases t with
    | inl b =>
      simp only [u8Step, u8Lead]
      split_ifs <;> simp
    | inr c => simp [u8Step]

theorem u8StepAcc_progress (p : List Char × U8State) (t : Nat ⊕ Char) :
    (u8StepAcc p t).1 ≠ [] ∨ (u8StepAcc p t).2 ≠ U8State.clean := by
  rcases hp : p.1 with _ | ⟨c, cs⟩
  · rcases u8Step_progress p.2 t with h | h
    · left; simp [u8StepAcc, hp, h]
    · right; simpa [u8StepAcc] using h
  · left; simp [u8StepAcc, hp]

theorem u8_foldl_progress (ts : List (Nat ⊕ Char)) :
    ∀ p : List Char × U8State, ts ≠ [] →
    (ts.foldl u8StepAcc p).1 ≠ [] ∨ (ts.foldl u8StepAcc p).2 ≠ U8State.clean := by
  induction ts with
  | nil => exact fun p h => absurd rfl h
  | cons t rest ih =>
    intro p _
    by_cases hr : rest = []
    · subst hr
      simpa using u8StepAcc_progress p t
    · rw [List.foldl_cons]
      exact ih (u8StepAcc p t) hr

theorem renderToks_ne_nil {ts : List (Nat ⊕ Char)} (h : ts ≠ []) : renderToks ts ≠ [] := by
  unfold renderToks
  rcases u8_foldl_progress ts ([], .clean) h with h1 | h1
  · simp [h1]
  · rcases hs : (ts.foldl u8StepAcc ([], .clean)).2 with _ | ⟨n, a, lo, hi⟩
    · exact absurd hs h1
    · simp [hs, u8Flush]

theorem unquote_ne_nil {l : List Char} (h : l ≠ []) : unquote l ≠ [] :=
  renderToks_ne_nil (unquoteTokens_ne_nil h)

theorem qslPairs_snd_ne_empty {chunks : List (List Char)} {pr : String × String}
    (h : pr ∈ qslPairs chunks) : pr.2 ≠ "" := by
  induction chunks with
  | nil => simp [qslPairs] at h
  | cons chunk rest ih =>
    simp only [qslPairs] at h
    by_cases hc : chunk = []
    · simp [hc] at h
      exact ih h
    · simp only [if_neg hc] at h
      rcases hs : splitFirst '=' chunk with _ | ⟨n, v⟩
      · rw [hs] at h
        exact ih h
      · rw [hs] at h
        by_cases hv : v = []
        · simp [hv] at h
          exact ih h
        · simp only [if_neg hv, List.mem_cons] at h
          rcases h with h | h
          · rw [h]
            intro habs
            have : unquote (plusToSpace v) = [] := by
              have := congrArg String.toList habs
              simpa using this
            exact unquote_ne_nil (by simpa [plusToSpace] using hv) this
          · exact ih h

theorem parse_qsl_snd_ne_empty {qs : String} {pr : String × String}
    (h : pr ∈ parse_qsl qs) : pr.2 ≠ "" :=
  qslPairs_snd_ne_empty h

theorem mediaurl_values_ne_empty {qs key v : String}
    (h : v ∈ parse_qs_all qs key) : v ≠ "" := by
  simp only [parse_qs_all, List.mem_map] at h
  rcases h with ⟨p, hp, rfl⟩
  exact parse_qsl_snd_ne_empty (List.mem_of_mem_filter hp)

theorem extract_media_url_cons {url : String} {pr : ParseResult} {v : String}
    {rest : List String} (hp : urlparseE url = .ok pr)
    (hv : parse_qs_all pr.query "mediaurl" = v :: rest) :
    v ≠ "" ∧ extract_media_url url = .ok v := by
  have hne : v ≠ "" :=
    mediaurl_values_ne_empty (v := v) (by rw [hv]; exact List.mem_cons_self v rest)
  refine ⟨hne, ?_⟩
  simp [extract_media_url, hp, hv, hne]

theorem extract_media_url_nil {url : String} {pr : ParseResult}
    (hp : urlparseE url = .ok pr)
    (hv : parse_qs_all pr.query "mediaurl" = []) :
    extract_media_url url = .ok url := by
  simp [extract_media_url, hp, hv]

theorem mem_of_getLast?_eq_some {α : Type} {l : List α} {a : α}
    (h : l.getLast? = some a) : a ∈ l := by
  obtain ⟨hne, rfl⟩ :=
    List.mem_getLast?_eq_getLast (l := l) (x := a) (by simp [Option.mem_def, h])
  exact List.getLast_mem hne

theorem parsePath_comps_no_slash {s c : String}
    (h : c ∈ (parsePath s).comps) : '/' ∉ c.toList := by
  simp only [parsePath, List.mem_map] at h
  rcases h with ⟨p, hp, rfl⟩
  have := sep_not_mem_of_mem_splitChar (List.mem_of_mem_filter hp)
  simpa using this

theorem pathName_no_slash (s : String) : '/' ∉ (pathName (parsePath s)).toList := by
  unfold pathName
  rcases hl : (parsePath s).comps.getLast? with _ | c
  · simp
  · simp only [Option.getD_some]
    exact parsePath_comps_no_slash (mem_of_getLast?_eq_some hl)

theorem lastDot_getElem {l : List Char} {i : Nat} (h : lastDot l = some i) :
    l[i]? = some '.' := by
  induction l generalizing i with
  | nil => simp [lastDot] at h
  | cons c rest ih =>
    simp only [lastDot] at h
    rcases hr : lastDot rest with _ | j
    · rw [hr] at h
      by_cases hc : c = '.'
      · rw [if_pos hc] at h
        obtain rfl : (0 : Nat) = i := Option.some.inj h
        simp [hc]
      · rw [if_neg hc] at h
        exact absurd h (by simp)
    · rw [hr] at h
      obtain rfl : j + 1 = i := Option.some.inj h
      simp only [List.getElem?_cons_succ]
      exact ih hr

theorem pathSuffix_shape (s : String) :
    '/' ∉ (pathSuffix (parsePath s)).toList ∧
    (pathSuffix (parsePath s) ≠ "" →
      (pathSuffix (parsePath s)).toList.head? = some '.' ∧
      2 ≤ (pathSuffix (parsePath s)).toList.length) := by
  simp only [pathSuffix]
  split
  next i hd =>
    split
    next hcond =>
      have hget : (pathName (parsePath s)).toList[i]? = some '.' := lastDot_getElem hd
      have hlen : i < (pathName (parsePath s)).toList.length :=
        (List.getElem?_eq_some.mp hget).1
      constructor
      · intro hmem
        exact pathName_no_slash s
          (List.drop_subset i (pathName (parsePath s)).toList (by simpa using hmem))
      · intro _
        constructor
        · rw [show (String.mk ((pathName (parsePath s)).toList.drop i)).toList =
              (pathName (parsePath s)).toList.drop i from rfl, List.head?_drop]
          exact hget
        · rw [show (String.mk ((pathName (parsePath s)).toList.drop i)).toList =
              (pathName (parsePath s)).toList.drop i from rfl, List.length_drop]
          omega
    next => simp
  next => simp

theorem has_extension_false_iff {p : PPath} :
    has_extension p = false ↔ pathSuffix p = "" := by
  simp [has_extension]

/-! Lemmas about the float-division model.  The centrepiece,
`floatDivPos_eq`, shows the rounded quotient truncates to the exact floor
whenever the numerator is at most `2^53`; the crossing analysis inside it
is exactly the reason the program's percentage can exceed the floor for
larger numerators. -/

theorem natBitsF_spec : ∀ f n : Nat, n ≤ f → 1 ≤ n →
    2 ^ (natBitsF f n - 1) ≤ n ∧ n < 2 ^ natBitsF f n := by
  intro f
  induction f with
  | zero => intro n h1 h2; omega
  | succ f ih =>
    intro n hn h1
    by_cases hone : n ≤ 1
    · have he : n = 1 := by omega
      subst he
      constructor <;> simp [natBitsF]
    · have hrec : natBitsF (f + 1) n = natBitsF f (n / 2) + 1 := by
        simp [natBitsF, hone]
      have hhalf : n / 2 ≤ f := by omega
      have hhalf1 : 1 ≤ n / 2 := by omega
      obtain ⟨hl, hu⟩ := ih (n / 2) hhalf hhalf1
      have hB1 : 1 ≤ natBitsF f (n / 2) := by
        by_contra hc
        have hz : natBitsF f (n / 2) = 0 := by omega
        rw [hz] at hu
        simp at hu
        omega
      have hpow : 2 ^ natBitsF f (n / 2) = 2 * 2 ^ (natBitsF f (n / 2) - 1) := by
        conv_lhs => rw [show natBitsF f (n / 2) = natBitsF f (n / 2) - 1 + 1 by omega]
        rw [pow_succ]
        ring
      have hpow2 : 2 ^ (natBitsF f (n / 2) + 1) = 2 * 2 ^ natBitsF f (n / 2) := by
        rw [pow_succ]
        ring
      rw [hrec]
      constructor
      · simp only [Nat.add_sub_cancel]
        omega
      · omega

theorem natBits_spec {n : Nat} (h : 1 ≤ n) :
    2 ^ (natBits n - 1) ≤ n ∧ n < 2 ^ natBits n :=
  natBitsF_spec n n le_rfl h

theorem natBits_pos {n : Nat} (h : 1 ≤ n) : 1 ≤ natBits n := by
  obtain ⟨-, hu⟩ := natBits_spec h
  by_contra hc
  have hz : natBits n = 0 := by omega
  rw [hz] at hu
  simp at hu
  omega

theorem div_by_c_le (N c : Nat) (hc : 0 < c) : N / c ≤ 2 * (N / (2 * c)) + 1 := by
  have h2c : 0 < 2 * c := by omega
  have hlt : N / c < 2 * (N / (2 * c)) + 2 := by
    rw [Nat.div_lt_iff_lt_mul hc]
    calc N = 2 * c * (N / (2 * c)) + N % (2 * c) := (Nat.div_add_mod N (2 * c)).symm
      _ < 2 * c * (N / (2 * c)) + 2 * c := by
          have := Nat.mod_lt N h2c
          omega
      _ = (2 * (N / (2 * c)) + 2) * c := by ring
  omega

theorem two_mul_div_le (N c : Nat) (hc : 0 < c) : 2 * N / c ≤ 2 * (N / c) + 1 := by
  have hlt : 2 * N / c < 2 * (N / c) + 2 := by
    rw [Nat.div_lt_iff_lt_mul hc]
    calc 2 * N = 2 * (c * (N / c) + N % c) := by rw [Nat.div_add_mod]
      _ < 2 * (c * (N / c)) + 2 * c := by
          have := Nat.mod_lt N hc
          omega
      _ = (2 * (N / c) + 2) * c := by ring
  omega

theorem shift_div_lt (a b : Nat) (ha : 1 ≤ a) (hb : 1 ≤ b) (t : Int)
    (ht : t ≤ 52 - ((natBits a : Int) - (natBits b : Int))) :
    a * 2 ^ t.toNat / (b * 2 ^ (-t).toNat) < 2 ^ 53 := by
  obtain ⟨-, hau⟩ := natBits_spec ha
  obtain ⟨hbl, -⟩ := natBits_spec hb
  have hbb := natBits_pos hb
  have key : natBits a + t.toNat ≤ 53 + (natBits b - 1 + (-t).toNat) := by omega
  have hD0 : 0 < b * 2 ^ (-t).toNat := by positivity
  rw [Nat.div_lt_iff_lt_mul hD0]
  calc a * 2 ^ t.toNat < 2 ^ natBits a * 2 ^ t.toNat :=
        (Nat.mul_lt_mul_right (by positivity)).mpr hau
    _ = 2 ^ (natBits a + t.toNat) := (pow_add 2 _ _).symm
    _ ≤ 2 ^ (53 + (natBits b - 1 + (-t).toNat)) := Nat.pow_le_pow_right (by norm_num) key
    _ = 2 ^ 53 * (2 ^ (natBits b - 1) * 2 ^ (-t).toNat) := by rw [pow_add, pow_add]
    _ ≤ 2 ^ 53 * (b * 2 ^ (-t).toNat) :=
        Nat.mul_le_mul_left _ (Nat.mul_le_mul_right _ hbl)

theorem shift_div_ge (a b : Nat) (ha : 1 ≤ a) (hb : 1 ≤ b) (t : Int)
    (ht : 53 - ((natBits a : Int) - (natBits b : Int)) ≤ t) :
    2 ^ 52 ≤ a * 2 ^ t.toNat / (b * 2 ^ (-t).toNat) := by
  obtain ⟨hal, -⟩ := natBits_spec ha
  obtain ⟨-, hbu⟩ := natBits_spec hb
  have haa := natBits_pos ha
  have key : 52 + (natBits b + (-t).toNat) ≤ natBits a - 1 + t.toNat := by omega
  have hD0 : 0 < b * 2 ^ (-t).toNat := by positivity
  rw [Nat.le_div_iff_mul_le hD0]
  calc 2 ^ 52 * (b * 2 ^ (-t).toNat)
      ≤ 2 ^ 52 * (2 ^ natBits b * 2 ^ (-t).toNat) :=
        Nat.mul_le_mul_left _ (Nat.mul_le_mul_right _ (le_of_lt hbu))
    _ = 2 ^ (52 + (natBits b + (-t).toNat)) := by rw [pow_add, pow_add]
    _ ≤ 2 ^ (natBits a - 1 + t.toNat) := Nat.pow_le_pow_right (by norm_num) key
    _ = 2 ^ (natBits a - 1) * 2 ^ t.toNat := pow_add 2 _ _
    _ ≤ a * 2 ^ t.toNat := Nat.mul_le_mul_right _ hal

theorem shift_div_succ_le (a b : Nat) (hb : 1 ≤ b) (t : Int) :
    a * 2 ^ (t + 1).toNat / (b * 2 ^ (-(t + 1)).toNat) ≤
      2 * (a * 2 ^ t.toNat / (b * 2 ^ (-t).toNat)) + 1 := by
  by_cases ht : 0 ≤ t
  · have hp : (t + 1).toNat = t.toNat + 1 := by omega
    have hq : (-(t + 1)).toNat = 0 := by omega
    have hq0 : (-t).toNat = 0 := by omega
    rw [hp, hq, hq0]
    simp only [pow_zero, mul_one, pow_succ]
    have h2 : a * (2 ^ t.toNat * 2) = 2 * (a * 2 ^ t.toNat) := by ring
    rw [h2]
    exact two_mul_div_le (a * 2 ^ t.toNat) b hb
  · have hp : (t + 1).toNat = 0 := by omega
    have hp0 : t.toNat = 0 := by omega
    have hq : (-t).toNat = (-(t + 1)).toNat + 1 := by omega
    rw [hp, hp0, hq]
    simp only [pow_zero, mul_one, pow_succ]
    have h2 : b * (2 ^ (-(t + 1)).toNat * 2) = 2 * (b * 2 ^ (-(t + 1)).toNat) := by ring
    rw [h2]
    exact div_by_c_le a (b * 2 ^ (-(t + 1)).toNat) (by positivity)

theorem floatScale_cases (a b : Nat) :
    (floatScale a b = 52 - ((natBits a : Int) - (natBits b : Int)) ∧
      2 ^ 52 ≤ a * 2 ^ (52 - ((natBits a : Int) - (natBits b : Int))).toNat /
        (b * 2 ^ (-(52 - ((natBits a : Int) - (natBits b : Int)))).toNat)) ∨
    (floatScale a b = 52 - ((natBits a : Int) - (natBits b : Int)) + 1 ∧
      a * 2 ^ (52 - ((natBits a : Int) - (natBits b : Int))).toNat /
        (b * 2 ^ (-(52 - ((natBits a : Int) - (natBits b : Int)))).toNat) < 2 ^ 52) := by
  simp only [floatScale]
  split
  next h => exact Or.inr ⟨rfl, h⟩
  next h => exact Or.inl ⟨rfl, by omega⟩

theorem floatScale_range (a b : Nat) (ha : 1 ≤ a) (hb : 1 ≤ b) :
    2 ^ 52 ≤ a * 2 ^ (floatScale a b).toNat / (b * 2 ^ (-(floatScale a b)).toNat) ∧
    a * 2 ^ (floatScale a b).toNat / (b * 2 ^ (-(floatScale a b)).toNat) < 2 ^ 53 := by
  rcases floatScale_cases a b with ⟨heq, hge⟩ | ⟨heq, hlt⟩
  · rw [heq]
    exact ⟨hge, shift_div_lt a b ha hb _ le_rfl⟩
  · rw [heq]
    constructor
    · exact shift_div_ge a b ha hb _ (by omega)
    · have hd := shift_div_succ_le a b hb (52 - ((natBits a : Int) - (natBits b : Int)))
      have hp : (2 : Nat) ^ 53 = 2 * 2 ^ 52 := by norm_num
      omega

theorem round_shift_eq (a b : Nat) (hb : 0 < b) (ha : a ≤ 2 ^ 53) (t : Int)
    (hge : 2 ^ 52 ≤ a * 2 ^ t.toNat / (b * 2 ^ (-t).toNat)) :
    roundMant (a * 2 ^ t.toNat / (b * 2 ^ (-t).toNat))
        (a * 2 ^ t.toNat % (b * 2 ^ (-t).toNat)) (b * 2 ^ (-t).toNat) *
      2 ^ (-t).toNat / 2 ^ t.toNat = a / b := by
  by_cases hq : (-t).toNat = 0
  · simp only [hq, pow_zero, mul_one] at hge ⊢
    set p := t.toNat with hpdef
    set N := a * 2 ^ p with hNdef
    have hm0 : N / b / 2 ^ p = a / b := by
      rw [Nat.div_div_eq_div_mul]
      exact Nat.mul_div_mul_right a b (by positivity)
    have hcross : b ≤ 2 * (N % b) → (N / b + 1) / 2 ^ p = a / b := by
      intro hup
      rw [Nat.succ_div]
      by_cases hdvd : 2 ^ p ∣ N / b + 1
      · exfalso
        obtain ⟨K, hK⟩ := hdvd
        have hdm : b * (N / b) + N % b = N := Nat.div_add_mod N b
        have hrlt : N % b < b := Nat.mod_lt N hb
        have hr1 : 1 ≤ N % b := by omega
        have haK : a < K * b := by
          have hlt1 : N < (N / b + 1) * b := by
            have hexp : (N / b + 1) * b = b * (N / b) + b := by ring
            omega
          rw [hK] at hlt1
          have hlt2 : a * 2 ^ p < K * b * 2 ^ p := by
            calc a * 2 ^ p = N := hNdef.symm
              _ < 2 ^ p * K * b := hlt1
              _ = K * b * 2 ^ p := by ring
          exact Nat.lt_of_mul_lt_mul_right hlt2
        have hKb : K * b * 2 ^ (p + 1) ≤ 2 * N + b := by
          have he1 : K * b * 2 ^ (p + 1) = 2 * b * (2 ^ p * K) := by
            rw [pow_succ]
            ring
          have he2 : 2 * b * (2 ^ p * K) = 2 * (b * (N / b)) + 2 * b := by
            rw [← hK]
            ring
          omega
        have hb2 : 2 ^ (p + 1) ≤ b := by
          have he3 : (a + 1) * 2 ^ (p + 1) ≤ K * b * 2 ^ (p + 1) :=
            Nat.mul_le_mul_right _ (by omega)
          have he4 : (a + 1) * 2 ^ (p + 1) = 2 * (a * 2 ^ p) + 2 ^ (p + 1) := by
            rw [pow_succ]
            ring
          omega
        have hm0b : 2 ^ (p + 1) * 2 ^ 52 ≤ b * (N / b) :=
          Nat.mul_le_mul hb2 hge
        have hppow : 2 ^ (p + 1) * 2 ^ 52 = 2 ^ p * 2 ^ 53 := by
          rw [← pow_add, ← pow_add]
        have hNle : N ≤ 2 ^ 53 * 2 ^ p := by
          rw [hNdef]
          exact Nat.mul_le_mul_right _ ha
        have hcomm : (2 : Nat) ^ 53 * 2 ^ p = 2 ^ p * 2 ^ 53 := by ring
        omega
      · rw [if_neg hdvd]
        simpa using hm0
    unfold roundMant
    split_ifs with h1 h2 h3
    · exact hm0
    · exact hcross (by omega)
    · exact hm0
    · exact hcross (by omega)
  · have hq1 : 1 ≤ (-t).toNat := by omega
    have hp0 : t.toNat = 0 := by omega
    simp only [hp0, pow_zero, mul_one, Nat.div_one] at hge ⊢
    set q := (-t).toNat with hqdef
    set D := b * 2 ^ q with hDdef
    have hD0 : 0 < D := by rw [hDdef]; positivity
    have hdm : D * (a / D) + a % D = a := Nat.div_add_mod a D
    have h2q : 2 ≤ 2 ^ q := by
      calc (2 : Nat) = 2 ^ 1 := (pow_one 2).symm
        _ ≤ 2 ^ q := Nat.pow_le_pow_right (by norm_num) hq1
    have hDge2 : 2 ≤ D := by
      rw [hDdef]
      calc (2 : Nat) = 1 * 2 := by ring
        _ ≤ b * 2 ^ q := Nat.mul_le_mul hb h2q
    have hmul : 2 ^ 53 ≤ a / D * D := by
      calc (2 : Nat) ^ 53 = 2 ^ 52 * 2 := by norm_num
        _ ≤ a / D * D := Nat.mul_le_mul hge hDge2
    have hr0 : a % D = 0 := by
      have hcomm : a / D * D = D * (a / D) := by ring
      omega
    rw [hr0]
    unfold roundMant
    rw [if_pos (by omega : 2 * 0 < D)]
    have ha_eq : a = b * (a / D * 2 ^ q) := by
      have hex : D * (a / D) = a := by omega
      calc a = D * (a / D) := hex.symm
        _ = b * (a / D * 2 ^ q) := by rw [hDdef]; ring
    conv_rhs => rw [ha_eq]
    rw [Nat.mul_div_cancel_left _ hb]

theorem floatDivPos_eq (a b : Nat) (hb : 0 < b) (ha : a ≤ 2 ^ 53) :
    floatDivPos a b = a / b := by
  by_cases ha0 : a = 0
  · subst ha0
    simp [floatDivPos]
  · have ha1 : 1 ≤ a := by omega
    obtain ⟨hge, -⟩ := floatScale_range a b ha1 hb
    unfold floatDivPos
    rw [if_neg ha0]
    exact round_shift_eq a b hb ha (floatScale a b) hge

theorem floatDivTrunc_eq_ediv {x y : Int} (hx : 0 ≤ x) (hy : 0 < y)
    (hx53 : x ≤ 2 ^ 53) : floatDivTrunc x y = x / y := by
  have h53i : (2 : Int) ^ 53 = 9007199254740992 := by norm_num
  have h53n : (2 : Nat) ^ 53 = 9007199254740992 := by norm_num
  unfold floatDivTrunc
  rw [if_pos hx, if_pos (le_of_lt hy)]
  rw [floatDivPos_eq x.toNat y.toNat (by omega) (by omega)]
  rw [Int.natCast_div, Int.toNat_of_nonneg hx, Int.toNat_of_nonneg (le_of_lt hy)]

/-! ## Claims -/

/-- Claim C3 (counterexample): the claim "for every input URL string, …
otherwise resolve(url) = url, the input unchanged" fails: on a URL whose
authority contains an unbalanced square bracket, `urlparse` raises
`ValueError: Invalid IPv6 URL` inside `extract_media_url`, so the input URL
is not returned at all. -/
theorem C3_counterexample :
    extract_media_url "http://[a/b" = .error "Invalid IPv6 URL" ∧
    extract_media_url "http://[a/b" ≠ .ok "http://[a/b" := by
  constructor
  · decide
  · decide

/-- Claim C3 (amended): for every input URL string that `urlparse` accepts,
if the parsed query carries a `mediaurl` parameter then its first stored
value `v` is non-empty and `resolve(url) = v`; if it carries none (the
parameter is absent or all its raw values are empty, which `parse_qs`
drops), `resolve(url) = url`, the input unchanged. -/
theorem C3_resolve_contract (url : String) (pr : ParseResult)
    (hp : urlparseE url = .ok pr) :
    (parse_qs_all pr.query "mediaurl" = [] → extract_media_url url = .ok url) ∧
    (∀ v rest, parse_qs_all pr.query "mediaurl" = v :: rest →
      v ≠ "" ∧ extract_media_url url = .ok v) :=
  ⟨fun hnil => extract_media_url_nil hp hnil,
   fun _ _ hv => extract_media_url_cons hp hv⟩

/-- Witness for C3: both branches of the amended claim evaluated on the
spec's end-to-end scenarios A and B. -/
theorem C3_resolve_contract_witness :
    extract_media_url "https://example.com/x?mediaurl=https://cdn.example.com/file.bin" =
      .ok "https://cdn.example.com/file.bin" ∧
    extract_media_url "https://example.com/file.txt" = .ok "https://example.com/file.txt" := by
  constructor
  · exact ((C3_resolve_contract
      "https://example.com/x?mediaurl=https://cdn.example.com/file.bin"
      ⟨"https", "example.com", "/x", "", "mediaurl=https://cdn.example.com/file.bin", ""⟩
      (by decide)).2 "https://cdn.example.com/file.bin" [] (by decide)).2
  · exact (C3_resolve_contract "https://example.com/file.txt"
      ⟨"https", "example.com", "/file.txt", "", "", ""⟩ (by decide)).1 (by decide)

/-- Claim C8: when the parsed query stores the `mediaurl` parameter more
than once (all stored values being non-empty, as `parse_qs` drops empty raw
values), `resolve` returns the first value; later occurrences are
ignored. -/
theorem C8_first_value_wins (url : String) (pr : ParseResult) (v1 v2 : String)
    (rest : List String) (hp : urlparseE url = .ok pr)
    (hv : parse_qs_all pr.query "mediaurl" = v1 :: v2 :: rest) :
    extract_media_url url = .ok v1 :=
  (extract_media_url_cons hp hv).2

/-- Witness for C8: a URL with two `mediaurl` values resolves to the
first. -/
theorem C8_first_value_wins_witness :
    extract_media_url "http://h/p?mediaurl=a&mediaurl=b" = .ok "a" :=
  C8_first_value_wins "http://h/p?mediaurl=a&mediaurl=b"
    ⟨"http", "h", "/p", "", "mediaurl=a&mediaurl=b", ""⟩ "a" "b" []
    (by decide) (by decide)

/-- Claim C4 (counterexample): the claim "otherwise normalize appends
exactly the extension of the effective URL's path component" fails when the
destination path's final component is empty: for the empty destination path
and a URL with extension `.bin`, `with_suffix` raises
`ValueError: ... has an empty name` instead of appending. -/
theorem C4_counterexample :
    has_extension (parsePath "") = false ∧
    normalizeLoc "http://e.com/f.bin" "" = .error "has an empty name" := by
  constructor
  · decide
  · decide

/-- Claim C4 (amended): for every destination path and effective URL
accepted by `urlparse`: if the path already has a non-empty extension,
normalize returns it unchanged; otherwise, if the path's final component is
non-empty, normalize appends exactly the extension of the URL's path
component (possibly empty) to that component; and if the final component is
empty, normalize raises an error (`with_suffix` rejects paths with an empty
name) instead of returning a path. -/
theorem C4_normalize_contract (locField url : String) (pr : ParseResult)
    (hp : urlparseE url = .ok pr) :
    (has_extension (parsePath locField) = true →
      normalizeLoc url locField = .ok (parsePath locField)) ∧
    (has_extension (parsePath locField) = false →
      pathName (parsePath locField) ≠ "" →
      normalizeLoc url locField = .ok
        ⟨(parsePath locField).root,
         (parsePath locField).comps.dropLast ++
           [pathName (parsePath locField) ++ pathSuffix (parsePath pr.path)]⟩) ∧
    (has_extension (parsePath locField) = false →
      pathName (parsePath locField) = "" →
      normalizeLoc url locField = .error "has an empty name") := by
  obtain ⟨hsep, hshape⟩ := pathSuffix_shape pr.path
  have hvalid : ¬ ((pathSuffix (parsePath pr.path) ≠ "" ∧
      (pathSuffix (parsePath pr.path)).toList.head? ≠ some '.') ∨
      pathSuffix (parsePath pr.path) = ".") := by
    rintro (⟨h1, h2⟩ | h1)
    · exact h2 (hshape h1).1
    · have h2 := hshape (by rw [h1]; decide)
      rw [h1] at h2
      exact absurd h2.2 (by decide)
  have hsep' : '/' ∉ (pathSuffix (parsePath pr.path)).data := hsep
  have hvalid' : ¬ ((¬ pathSuffix (parsePath pr.path) = "" ∧
      ¬ (pathSuffix (parsePath pr.path)).data.head? = some '.') ∨
      pathSuffix (parsePath pr.path) = ".") := hvalid
  refine ⟨?_, ?_, ?_⟩
  · intro hext
    simp [normalizeLoc, hext]
  · intro hext hname
    have hsfx0 : pathSuffix (parsePath locField) = "" := has_extension_false_iff.mp hext
    simp [normalizeLoc, hext, hp, with_suffix, hsep', hvalid', hname, hsfx0]
  · intro hext hname0
    simp [normalizeLoc, hext, hp, with_suffix, hsep', hvalid', hname0]

/-- Witness for C4: the spec's end-to-end scenarios A (extension appended:
destination `/tmp/out`, URL path `/file.bin`, result `/tmp/out.bin`) and B
(path with extension returned unchanged). -/
theorem C4_normalize_contract_witness :
    normalizeLoc "https://cdn.example.com/file.bin" "/tmp/out" =
      .ok ⟨"/", ["tmp", "out.bin"]⟩ ∧
    normalizeLoc "https://example.com/file.txt" "/tmp/report.txt" =
      .ok ⟨"/", ["tmp", "report.txt"]⟩ := by
  constructor
  · have h := (C4_normalize_contract "/tmp/out" "https://cdn.example.com/file.bin"
      ⟨"https", "cdn.example.com", "/file.bin", "", "", ""⟩
      (by decide)).2.1 (by decide) (by decide)
    exact h.trans (by decide)
  · have h := (C4_normalize_contract "/tmp/report.txt" "https://example.com/file.txt"
      ⟨"https", "example.com", "/file.txt", "", "", ""⟩ (by decide)).1 (by decide)
    exact h.trans (by decide)

/-- Claim C1 (counterexample): the claim "with total_size <= 0 … the
progress indicator is left unchanged, for all values of block_index and
block_size" fails: the completion branch `if read >= total_size` is outside
the `total_size > 0` guard, so a notification `(1, 512, -1)` (unknown total
size) sets an indicator that was at 0 to 100. -/
theorem C1_counterexample :
    (-1 : Int) ≤ 0 ∧ handle_progress 0 1 512 (-1) = 100 ∧ (100 : Int) ≠ 0 := by
  refine ⟨by decide, by decide, by decide⟩

/-- Claim C1 (amended): for every progress notification with
total_size <= 0, no percentage is computed from the formula, but the
indicator is set to 100 whenever block_index * block_size >= total_size
(which always holds for non-negative blocks) and is left unchanged only
when block_index * block_size < total_size. -/
theorem C1_unknown_size (bar block_number block_size total_size : Int)
    (h : total_size ≤ 0) :
    progress_writes block_number block_size total_size =
      (if total_size ≤ block_number * block_size then [100] else []) ∧
    handle_progress bar block_number block_size total_size =
      (if total_size ≤ block_number * block_size then 100 else bar) := by
  have h0 : ¬ (0 < total_size) := by omega
  constructor
  · simp [progress_writes, h0]
  · simp [handle_progress, h0]

/-- Witness for C1 (amended): an unknown total size of -1 computes no
percentage yet forces the indicator to 100. -/
theorem C1_unknown_size_witness :
    progress_writes 1 512 (-1) = [100] ∧ handle_progress 7 1 512 (-1) = 100 := by
  have h := C1_unknown_size 7 1 512 (-1) (by decide)
  exact ⟨h.1.trans (by decide), h.2.trans (by decide)⟩

/-- Claim C2: the progress projector never writes a value above 100 to the
indicator, and whenever block_index * block_size >= total_size > 0 the call
ends with the indicator forced to exactly 100. -/
theorem C2_clamp_and_force (bar block_number block_size total_size : Int) :
    (∀ v ∈ progress_writes block_number block_size total_size, v ≤ 100) ∧
    (0 < total_size → total_size ≤ block_number * block_size →
      handle_progress bar block_number block_size total_size = 100) := by
  constructor
  · intro v hv
    simp only [progress_writes, List.mem_append] at hv
    rcases hv with hv | hv
    · by_cases h0 : 0 < total_size
      · rw [if_pos h0] at hv
        simp only [List.mem_singleton] at hv
        subst hv
        split <;> omega
      · rw [if_neg h0] at hv
        simp at hv
    · by_cases hr : total_size ≤ block_number * block_size
      · rw [if_pos hr] at hv
        simp only [List.mem_singleton] at hv
        omega
      · rw [if_neg hr] at hv
        simp at hv
  · intro _ hr
    simp [handle_progress, hr]

/-- Witness for C2: the value 50 written for notification (5, 1024, 10240)
is within bound, and notification (10, 1024, 10240) forces 100. -/
theorem C2_clamp_and_force_witness :
    (50 : Int) ∈ progress_writes 5 1024 10240 ∧ (50 : Int) ≤ 100 ∧
    handle_progress 3 10 1024 10240 = 100 :=
  ⟨by decide, (C2_clamp_and_force 3 5 1024 10240).1 50 (by decide),
   (C2_clamp_and_force 3 10 1024 10240).2 (by decide) (by decide)⟩

/-- Claim C7 (counterexample): the claim "the computed percentage equals
floor(block_index * block_size * 100 / total_size) clamped to at most 100"
fails on the program's float arithmetic: at notification
(2·10^16 - 1, 1, 2·10^16) the exact quotient 99.999999999999995 rounds to
the double 100.0, so `int(read * 100 / total_size)` is 100 while the
claimed clamped floor is 99. -/
theorem C7_counterexample :
    handle_progress 0 19999999999999999 1 20000000000000000 = 100 ∧
    min 100 ((19999999999999999 * 1 * 100 : Int) / 20000000000000000) = 99 ∧
    (100 : Int) ≠ 99 := by
  refine ⟨by decide, by decide, by decide⟩

/-- Claim C7 (amended): for every progress notification with
total_size > 0, non-negative block counts, and
block_index * block_size * 100 ≤ 2^53 (every transfer below about
90 terabytes), the computed percentage equals
floor(block_index * block_size * 100 / total_size) clamped to at most 100;
beyond that bound the float rounding inside
`int(read * 100 / total_size)` can report one percent more than the floor.
In particular project(5, 1024, 10240) = 50 and
project(10, 1024, 10240) = 100. -/
theorem C7_percent_formula (bar block_number block_size total_size : Int)
    (h1 : 0 ≤ block_number) (h2 : 0 ≤ block_size) (h3 : 0 < total_size)
    (h4 : block_number * block_size * 100 ≤ 2 ^ 53) :
    handle_progress bar block_number block_size total_size =
      min 100 ((block_number * block_size * 100) / total_size) := by
  have hread : 0 ≤ block_number * block_size := mul_nonneg h1 h2
  have hdiv : floatDivTrunc (block_number * block_size * 100) total_size =
      (block_number * block_size * 100) / total_size :=
    floatDivTrunc_eq_ediv (by positivity) h3 h4
  simp only [handle_progress, if_pos h3]
  by_cases hr : total_size ≤ block_number * block_size
  · rw [if_pos hr]
    have h100 : 100 ≤ (block_number * block_size * 100) / total_size := by
      rw [Int.le_ediv_iff_mul_le h3]
      nlinarith
    exact (min_eq_left h100).symm
  · rw [if_neg hr]
    have hlt : (block_number * block_size * 100) / total_size < 100 := by
      rw [Int.ediv_lt_iff_lt_mul h3]
      nlinarith
    rw [hdiv, if_neg (by omega : ¬ 100 < (block_number * block_size * 100) / total_size)]
    exact (min_eq_right (le_of_lt hlt)).symm

/-- Witness for C7: the spec's scenario C, `project(5, 1024, 10240) = 50`
and `project(10, 1024, 10240) = 100`. -/
theorem C7_percent_formula_witness :
    handle_progress 0 5 1024 10240 = 50 ∧ handle_progress 0 10 1024 10240 = 100 :=
  ⟨(C7_percent_formula 0 5 1024 10240 (by decide) (by decide) (by decide)
      (by decide)).trans (by decide),
   (C7_percent_formula 0 10 1024 10240 (by decide) (by decide) (by decide)
      (by decide)).trans (by decide)⟩

/-- Claim C5: once the download reaches the fetch, its outcome is
classified into exactly two error kinds — an escaping `URLError` yields the
network-error dialog carrying the error's description, any other escaping
exception yields the generic-error dialog carrying the description — and a
fetch that raises nothing signals completion; every outcome yields a
dialog, none escapes the handlers. -/
theorem C5_error_classification (st : AppState) (fetch : FetchBehavior)
    (url : String) (loc : PPath)
    (h1 : extract_media_url st.urlField = .ok url)
    (h2 : normalizeLoc url st.locationField = .ok loc) :
    (download st fetch).1 =
      match fetch.outcome with
      | .ok => .completed
      | .urlError e => .networkWarning ("Failed to download the file. Error: " ++ e)
      | .exn e => .genericWarning ("An error occurred: " ++ e) := by
  obtain ⟨events, outcome⟩ := fetch
  cases outcome <;> simp [download, h1, h2]

/-- Witness for C5: the three outcomes evaluated on a concrete state. -/
theorem C5_error_classification_witness :
    (download ⟨"http://h/f.txt", "/tmp/r.txt", 0⟩ ⟨[], .urlError "boom"⟩).1 =
      .networkWarning "Failed to download the file. Error: boom" ∧
    (download ⟨"http://h/f.txt", "/tmp/r.txt", 0⟩ ⟨[], .exn "disk"⟩).1 =
      .genericWarning "An error occurred: disk" ∧
    (download ⟨"http://h/f.txt", "/tmp/r.txt", 0⟩ ⟨[], .ok⟩).1 = .completed := by
  refine ⟨?_, ?_, ?_⟩
  · exact (C5_error_classification ⟨"http://h/f.txt", "/tmp/r.txt", 0⟩ ⟨[], .urlError "boom"⟩
      "http://h/f.txt" (parsePath "/tmp/r.txt") (by decide) (by decide)).trans (by decide)
  · exact (C5_error_classification ⟨"http://h/f.txt", "/tmp/r.txt", 0⟩ ⟨[], .exn "disk"⟩
      "http://h/f.txt" (parsePath "/tmp/r.txt") (by decide) (by decide)).trans (by decide)
  · exact (C5_error_classification ⟨"http://h/f.txt", "/tmp/r.txt", 0⟩ ⟨[], .ok⟩
      "http://h/f.txt" (parsePath "/tmp/r.txt") (by decide) (by decide)).trans (by decide)

/-- Claim C6: for a download that reaches the fetch, the progress indicator
is reset to 0 when the transfer succeeds and is left at the value the
progress callbacks last set (not reset) when the transfer fails with either
error kind. -/
theorem C6_progress_reset_policy (st : AppState) (fetch : FetchBehavior)
    (url : String) (loc : PPath)
    (h1 : extract_media_url st.urlField = .ok url)
    (h2 : normalizeLoc url st.locationField = .ok loc) :
    (fetch.outcome = .ok → (download st fetch).2.progressBar = 0) ∧
    (∀ e, fetch.outcome = .urlError e →
      (download st fetch).2.progressBar = runProgress st.progressBar fetch.events) ∧
    (∀ e, fetch.outcome = .exn e →
      (download st fetch).2.progressBar = runProgress st.progressBar fetch.events) := by
  obtain ⟨events, outcome⟩ := fetch
  cases outcome <;> simp [download, h1, h2]

/-- Witness for C6: a failed transfer leaves the indicator at the last
callback value (50), a successful one resets it to 0. -/
theorem C6_progress_reset_policy_witness :
    (download ⟨"http://h/f.txt", "/tmp/r.txt", 7⟩
      ⟨[(5, 1024, 10240)], .urlError "x"⟩).2.progressBar = 50 ∧
    (download ⟨"http://h/f.txt", "/tmp/r.txt", 7⟩
      ⟨[(5, 1024, 10240)], .ok⟩).2.progressBar = 0 := by
  constructor
  · exact ((C6_progress_reset_policy ⟨"http://h/f.txt", "/tmp/r.txt", 7⟩
      ⟨[(5, 1024, 10240)], .urlError "x"⟩ "http://h/f.txt" (parsePath "/tmp/r.txt")
      (by decide) (by decide)).2.1 "x" rfl).trans (by decide)
  · exact (C6_progress_reset_policy ⟨"http://h/f.txt", "/tmp/r.txt", 7⟩
      ⟨[(5, 1024, 10240)], .ok⟩ "http://h/f.txt" (parsePath "/tmp/r.txt")
      (by decide) (by decide)).1 rfl

/-- Claim C9: for every download that reaches the fetch, both input text
fields are cleared before the transfer begins and are therefore empty
afterwards regardless of the outcome. -/
theorem C9_fields_cleared (st : AppState) (fetch : FetchBehavior)
    (url : String) (loc : PPath)
    (h1 : extract_media_url st.urlField = .ok url)
    (h2 : normalizeLoc url st.locationField = .ok loc) :
    (download st fetch).2.urlField = "" ∧ (download st fetch).2.locationField = "" := by
  obtain ⟨events, outcome⟩ := fetch
  cases outcome <;> simp [download, h1, h2]

/-- Witness for C9: fields cleared on a failing and a succeeding fetch. -/
theorem C9_fields_cleared_witness :
    (download ⟨"http://h/f.txt", "/tmp/r.txt", 7⟩ ⟨[], .urlError "x"⟩).2.urlField = "" ∧
    (download ⟨"http://h/f.txt", "/tmp/r.txt", 7⟩ ⟨[], .urlError "x"⟩).2.locationField = "" :=
  C9_fields_cleared ⟨"http://h/f.txt", "/tmp/r.txt", 7⟩ ⟨[], .urlError "x"⟩
    "http://h/f.txt" (parsePath "/tmp/r.txt") (by decide) (by decide)

/-- Claim C10: URL resolution and path normalization run before the
`try`-block: with an empty destination path (empty final component) and a
URL whose path has the extension `.bin`, `with_suffix` raises an error that
neither handler catches, no dialog is shown, and the text fields (and
indicator) keep their old values. -/
theorem C10_uncaught_before_handlers :
    download ⟨"http://e.com/f.bin", "", 55⟩ ⟨[], .ok⟩ =
      (.uncaught "has an empty name", ⟨"http://e.com/f.bin", "", 55⟩) := by
  decide

end URLApp
